import Mathlib

/-!
# Verification of the hierarchical-forecast reconciliation core

A shallow embedding, over exact rationals, of the reconciliation engine
described in the repository specification: the aggregation builder
(cross-sectional and temporal modes), the reconciliation operator library
(BottomUp, TopDown, MiddleOut, MinTrace family) and the reconciliation
driver.  The repository snapshot ships only example notebooks and CI
configuration, so every engine definition below is modelled from the
specification text and marked as such in its doc comment.
-/

namespace HF

open Matrix Finset

/-- Index of bottom series `j` among all `a + n` series; the spec orders the
rows of `S` with the `a` aggregate series first, then the `n` bottom series. -/
def botIdx (a : ℕ) {n : ℕ} (j : Fin n) : Fin (a + n) :=
  ⟨a + j.val, by omega⟩

/-- The sub-block of `S` restricted to the bottom rows is the identity matrix
(spec invariant on the aggregation matrix). -/
def BottomBlockId {a n : ℕ} (S : Matrix (Fin (a + n)) (Fin n) ℚ) : Prop :=
  ∀ i j : Fin n, S (botIdx a i) j = if i = j then 1 else 0

/-- A vector of values for all series is coherent for `S`: every entry equals
the `S`-weighted sum of the bottom entries (`S @ bottom == aggregate`). -/
def Coherent {a n : ℕ} (S : Matrix (Fin (a + n)) (Fin n) ℚ)
    (y : Fin (a + n) → ℚ) : Prop :=
  ∀ i, y i = ∑ j, S i j * y (botIdx a j)

/-- Top-down disaggregation variants (spec: average historical proportions,
proportions of averages, forecast proportions). -/
inductive TDMethod
  | average_proportions
  | proportion_averages
  | forecast_proportions
deriving DecidableEq

/-- MinTrace covariance variants. -/
inductive MTMethod
  | ols
  | wls_struct
  | wls_var
  | mint_cov
  | mint_shrink
deriving DecidableEq

/-- A reconciliation method: a closed tagged variant, one case per method
name with its parameters as payload, as the spec's design notes require. -/
inductive Method
  | bottomUp
  | topDown (td : TDMethod)
  | middleOut (lvl : String) (td : TDMethod)
  | minTrace (mt : MTMethod)
deriving DecidableEq

/-- Column support of row `i` of `S`: the bottom series contributing to it. -/
def rowSupport {a n : ℕ} (S : Matrix (Fin (a + n)) (Fin n) ℚ)
    (i : Fin (a + n)) : Finset (Fin n) :=
  Finset.univ.filter (fun j => S i j ≠ 0)

/-- Strict nesting of the hierarchy encoded by `S`: the row supports form a
laminar family (any two are nested or disjoint), so every series has at most
one parent per level and the structure is a tree rather than a grouped,
non-nested aggregation. -/
def IsStrict {a n : ℕ} (S : Matrix (Fin (a + n)) (Fin n) ℚ) : Prop :=
  ∀ i k : Fin (a + n), rowSupport S i ⊆ rowSupport S k ∨
    rowSupport S k ⊆ rowSupport S i ∨
    Disjoint (rowSupport S i) (rowSupport S k)

instance {a n : ℕ} (S : Matrix (Fin (a + n)) (Fin n) ℚ) :
    Decidable (IsStrict S) := by
  unfold IsStrict; infer_instance

instance {a n : ℕ} (S : Matrix (Fin (a + n)) (Fin n) ℚ) :
    Decidable (BottomBlockId S) := by
  unfold BottomBlockId; infer_instance

/-- The rows of `S` whose support covers every bottom column: the candidate
roots of the hierarchy. -/
def rootList {a n : ℕ} (S : Matrix (Fin (a + n)) (Fin n) ℚ) :
    List (Fin (a + n)) :=
  (List.finRange (a + n)).filter (fun i => decide (∀ j, S i j ≠ 0))

/-- Modelled from the spec: the operator library's TopDown row, absent from
the snapshot — the per-variant proportion assigned to bottom series `j`
relative to the anchor row `anchor` — the mean of per-period historical
shares, the ratio of historical sums (proportions of averages), or the
bottom base forecasts normalized over the anchor's support so that the
distributed shares sum to one. -/
def tdProp {a n T : ℕ} (td : TDMethod) (S : Matrix (Fin (a + n)) (Fin n) ℚ)
    (Y : Fin (a + n) → Fin T → ℚ) (yhat : Fin (a + n) → ℚ)
    (anchor : Fin (a + n)) (j : Fin n) : ℚ :=
  match td with
  | .average_proportions => (∑ t, Y (botIdx a j) t / Y anchor t) / (T : ℚ)
  | .proportion_averages => (∑ t, Y (botIdx a j) t) / (∑ t, Y anchor t)
  | .forecast_proportions =>
      yhat (botIdx a j) / (∑ k ∈ rowSupport S anchor, yhat (botIdx a k))

/-- Modelled from the spec: TopDown operator builder, absent from the
snapshot — keeps the single root forecast and distributes it to the bottom
series by the variant's proportions; fails with a structural error (`none`)
unless the hierarchy is strictly nested with exactly one root. -/
def buildTopDown {a n T : ℕ} (td : TDMethod)
    (S : Matrix (Fin (a + n)) (Fin n) ℚ)
    (Y : Fin (a + n) → Fin T → ℚ) (yhat : Fin (a + n) → ℚ) :
    Option (Matrix (Fin n) (Fin (a + n)) ℚ) :=
  if IsStrict S then
    match rootList S with
    | [r] => some (Matrix.of fun j i => if i = r then tdProp td S Y yhat r j else 0)
    | _ => none
  else none

/-- First row of the designated middle level that covers bottom series `j`
(its middle-level ancestor); `dflt` when none exists. -/
def midOf {a n : ℕ} (tags : List (String × List (Fin (a + n))))
    (lvl : String) (S : Matrix (Fin (a + n)) (Fin n) ℚ) (j : Fin n)
    (dflt : Fin (a + n)) : Fin (a + n) :=
  ((((tags.lookup lvl).getD []).filter (fun i => decide (S i j ≠ 0))).headD dflt)

/-- Modelled from the spec: MiddleOut operator builder, absent from the
snapshot — middle-level forecasts are taken as given and distributed below
by top-down proportions, levels above arising by summation; fails with a
structural error unless the middle level exists in the tags and the
hierarchy is strictly nested with exactly one root. -/
def buildMiddleOut {a n T : ℕ} (lvl : String) (td : TDMethod)
    (tags : List (String × List (Fin (a + n))))
    (S : Matrix (Fin (a + n)) (Fin n) ℚ)
    (Y : Fin (a + n) → Fin T → ℚ) (yhat : Fin (a + n) → ℚ) :
    Option (Matrix (Fin n) (Fin (a + n)) ℚ) :=
  if IsStrict S ∧ (tags.lookup lvl).isSome then
    match rootList S with
    | [r] => some (Matrix.of fun j i =>
        if i = midOf tags lvl S j r then tdProp td S Y yhat i j else 0)
    | _ => none
  else none

/-- Computable matrix inverse via determinant and adjugate; a singular input
yields the zero matrix, the model's uniform degraded fallback standing in for
the spec's pseudo-inverse, applied identically on every call. -/
def qInv {k : ℕ} (A : Matrix (Fin k) (Fin k) ℚ) : Matrix (Fin k) (Fin k) ℚ :=
  A.det⁻¹ • A.adjugate

/-- Modelled from the spec: residual covariance estimation, absent from the
snapshot — sample covariance of the in-sample residual rows. -/
def covM {m T : ℕ} (R : Fin m → Fin T → ℚ) : Matrix (Fin m) (Fin m) ℚ :=
  Matrix.of fun i k => (∑ t, R i t * R k t) / (T : ℚ)

/-- Modelled from the spec: estimator variance of one off-diagonal sample
covariance entry (the numerator terms of the shrinkage ratio). -/
def estVar {m T : ℕ} (R : Fin m → Fin T → ℚ) (i k : Fin m) : ℚ :=
  ((T : ℚ) / ((T : ℚ) - 1) ^ 3) * ∑ t, (R i t * R k t - covM R i k) ^ 2

/-- Modelled from the spec: the mint_shrink shrinkage intensity, the ratio of
the sum of off-diagonal estimator variances to the sum of squared off-diagonal
sample covariances, clipped to `[0, 1]`. -/
def shrinkIntensity {m T : ℕ} (R : Fin m → Fin T → ℚ) : ℚ :=
  let num := ∑ i, ∑ k, if i = k then 0 else estVar R i k
  let den := ∑ i, ∑ k, if i = k then 0 else covM R i k ^ 2
  min 1 (max 0 (num / den))

/-- Modelled from the spec: MinTrace `W` estimators, absent from the
snapshot — identity for ols; diagonal of descendant counts for wls_struct;
diagonal of residual variances for wls_var; full sample covariance for
mint_cov; and for mint_shrink the convex shrinkage of the sample covariance
toward its diagonal at the clipped intensity. -/
def Wof {a n T : ℕ} (mt : MTMethod) (S : Matrix (Fin (a + n)) (Fin n) ℚ)
    (R : Fin (a + n) → Fin T → ℚ) : Matrix (Fin (a + n)) (Fin (a + n)) ℚ :=
  match mt with
  | .ols => 1
  | .wls_struct => Matrix.diagonal (fun i => ∑ j, S i j)
  | .wls_var => Matrix.diagonal (fun i => covM R i i)
  | .mint_cov => covM R
  | .mint_shrink =>
      Matrix.of fun i k =>
        (1 - shrinkIntensity R) * covM R i k +
          shrinkIntensity R * (if i = k then covM R i i else 0)

/-- Modelled from the spec: the MinTrace operator
`P = (Sᵀ W⁻¹ S)⁻¹ Sᵀ W⁻¹` for the variant's `W`. -/
def buildMinTrace {a n T : ℕ} (mt : MTMethod)
    (S : Matrix (Fin (a + n)) (Fin n) ℚ)
    (R : Fin (a + n) → Fin T → ℚ) : Matrix (Fin n) (Fin (a + n)) ℚ :=
  qInv (Sᵀ * qInv (Wof mt S R) * S) * (Sᵀ * qInv (Wof mt S R))

/-- Modelled from the spec: the reconciliation operator library, absent from
the snapshot — one exhaustive match over the method variant, producing the
`bottom × total` operator `P`, or `none` on a structural error. -/
def buildP {a n T : ℕ} (meth : Method)
    (tags : List (String × List (Fin (a + n))))
    (S : Matrix (Fin (a + n)) (Fin n) ℚ)
    (Y R : Fin (a + n) → Fin T → ℚ) (yhat : Fin (a + n) → ℚ) :
    Option (Matrix (Fin n) (Fin (a + n)) ℚ) :=
  match meth with
  | .bottomUp => some (Matrix.of fun j i => if i = botIdx a j then 1 else 0)
  | .topDown td => buildTopDown td S Y yhat
  | .middleOut lvl td => buildMiddleOut lvl td tags S Y yhat
  | .minTrace mt => some (buildMinTrace mt S R)

/-- Modelled from the spec: reconciling one horizon step of one base-model
column is applying `S @ P @ base_forecasts`. -/
def reconcile {a n T : ℕ} (meth : Method)
    (tags : List (String × List (Fin (a + n))))
    (S : Matrix (Fin (a + n)) (Fin n) ℚ)
    (Y R : Fin (a + n) → Fin T → ℚ) (yhat : Fin (a + n) → ℚ) :
    Option (Fin (a + n) → ℚ) :=
  (buildP meth tags S Y R yhat).map fun P => S.mulVec (P.mulVec yhat)

/-- Applying `S` to bottom values reads back unchanged at a bottom row when
the bottom block of `S` is the identity. -/
theorem mulVec_botIdx {a n : ℕ} {S : Matrix (Fin (a + n)) (Fin n) ℚ}
    (hS : BottomBlockId S) (v : Fin n → ℚ) (j : Fin n) :
    S.mulVec v (botIdx a j) = v j := by
  simp only [Matrix.mulVec, dotProduct]
  rw [Finset.sum_congr rfl (fun k _ => by rw [hS j k])]
  simp [ite_mul, Finset.sum_ite_eq]

/-- The toy 3-series hierarchy of the specification's end-to-end scenario:
root `A` over children `A1`, `A2`. -/
def Stoy : Matrix (Fin (1 + 2)) (Fin 2) ℚ := !![1, 1; 1, 0; 0, 1]

/-- A one-step in-sample history for the toy hierarchy (coherent). -/
def Ytoy : Fin (1 + 2) → Fin 1 → ℚ := fun i _ => (![8, 3, 5] : Fin 3 → ℚ) i

/-- Toy residuals (all zero). -/
def Rtoy : Fin (1 + 2) → Fin 1 → ℚ := fun _ _ => 0

/-- The toy incoherent base forecasts `A = 10, A1 = 3, A2 = 5`. -/
def ytoy : Fin (1 + 2) → ℚ := ![10, 3, 5]

/-- The coherent vector `A = 8, A1 = 3, A2 = 5`. -/
def ytoyCoh : Fin (1 + 2) → ℚ := ![8, 3, 5]

/-- C1: every reconciled output of every method is coherent — whenever a
method's operator builds successfully on an aggregation matrix whose bottom
block is the identity, the reconciled vector satisfies
`S @ bottom_reconciled == aggregate_reconciled` (exactly, over ℚ). -/
theorem reconcile_coherent {a n T : ℕ} (meth : Method)
    (tags : List (String × List (Fin (a + n))))
    (S : Matrix (Fin (a + n)) (Fin n) ℚ)
    (Y R : Fin (a + n) → Fin T → ℚ) (yhat : Fin (a + n) → ℚ)
    (out : Fin (a + n) → ℚ)
    (hS : BottomBlockId S)
    (h : reconcile meth tags S Y R yhat = some out) : Coherent S out := by
  obtain ⟨P, hP, hout⟩ : ∃ P, buildP meth tags S Y R yhat = some P ∧
      out = S.mulVec (P.mulVec yhat) := by
    unfold reconcile at h
    cases hbp : buildP meth tags S Y R yhat with
    | none => rw [hbp] at h; exact absurd h (by simp)
    | some P =>
        rw [hbp] at h
        exact ⟨P, rfl, by simpa using h.symm⟩
  subst hout
  intro i
  have hbot : ∀ j : Fin n,
      S.mulVec (P.mulVec yhat) (botIdx a j) = P.mulVec yhat j :=
    fun j => mulVec_botIdx hS _ j
  simp only [hbot]
  simp [Matrix.mulVec, dotProduct]

/-- C1 witness: on the toy hierarchy, BottomUp's reconciled output is
coherent. -/
theorem reconcile_coherent_witness : Coherent Stoy ytoyCoh :=
  reconcile_coherent Method.bottomUp [] Stoy Ytoy Rtoy ytoy ytoyCoh
    (by decide)
    (by
      unfold reconcile buildP
      simp only [Option.map_some']
      congr 1
      funext i
      fin_cases i <;>
        simp [Stoy, ytoy, ytoyCoh, botIdx, Matrix.mulVec, Matrix.dotProduct,
          Fin.sum_univ_succ] <;>
        norm_num)

/-- C8: BottomUp is the identity on already-coherent base forecasts: its
operator selects the bottom block unchanged, and coherence makes the
re-summed aggregates reproduce the originals. -/
theorem bottomUp_idempotent {a n T : ℕ}
    (tags : List (String × List (Fin (a + n))))
    (S : Matrix (Fin (a + n)) (Fin n) ℚ)
    (Y R : Fin (a + n) → Fin T → ℚ) (yhat : Fin (a + n) → ℚ)
    (hcoh : Coherent S yhat) :
    reconcile .bottomUp tags S Y R yhat = some yhat := by
  unfold reconcile buildP
  simp only [Option.map_some']
  congr 1
  funext i
  have hPv : (Matrix.of fun (j : Fin n) i => if i = botIdx a j then 1 else 0).mulVec yhat
      = fun j => yhat (botIdx a j) := by
    funext j
    simp [Matrix.mulVec, dotProduct, ite_mul, Finset.sum_ite_eq']
  rw [hPv]
  have := hcoh i
  simp only [Matrix.mulVec, dotProduct]
  exact this.symm

/-- C8 witness: the coherent toy vector is returned unchanged by BottomUp. -/
theorem bottomUp_idempotent_witness :
    Coherent Stoy ytoyCoh ∧
      reconcile .bottomUp [] Stoy Ytoy Rtoy ytoyCoh = some ytoyCoh := by
  have hcoh : Coherent Stoy ytoyCoh := by
    intro i
    fin_cases i <;>
      simp [Stoy, ytoyCoh, botIdx, Fin.sum_univ_succ] <;> norm_num
  exact ⟨hcoh, bottomUp_idempotent [] Stoy Ytoy Rtoy ytoyCoh hcoh⟩

/-- C3: the mint_shrink intensity always lies in `[0, 1]`; at intensity `1`
the shrunk covariance collapses to the wls_var diagonal and the reconciled
output of MinTrace(mint_shrink) equals that of MinTrace(wls_var); at
intensity `0` it is the full sample covariance and the output equals that of
MinTrace(mint_cov). -/
theorem mint_shrink_bounds {a n T : ℕ} (S : Matrix (Fin (a + n)) (Fin n) ℚ)
    (R : Fin (a + n) → Fin T → ℚ) :
    (0 ≤ shrinkIntensity R ∧ shrinkIntensity R ≤ 1) ∧
    (shrinkIntensity R = 1 →
      Wof .mint_shrink S R = Wof .wls_var S R ∧
      ∀ (tags : List (String × List (Fin (a + n)))) (Y : Fin (a + n) → Fin T → ℚ)
        (yhat : Fin (a + n) → ℚ),
        reconcile (.minTrace .mint_shrink) tags S Y R yhat =
          reconcile (.minTrace .wls_var) tags S Y R yhat) ∧
    (shrinkIntensity R = 0 →
      Wof .mint_shrink S R = Wof .mint_cov S R ∧
      ∀ (tags : List (String × List (Fin (a + n)))) (Y : Fin (a + n) → Fin T → ℚ)
        (yhat : Fin (a + n) → ℚ),
        reconcile (.minTrace .mint_shrink) tags S Y R yhat =
          reconcile (.minTrace .mint_cov) tags S Y R yhat) := by
  refine ⟨⟨le_min (by norm_num) (le_max_left 0 _), min_le_left _ _⟩, ?_, ?_⟩
  · intro h1
    have hW : Wof .mint_shrink S R = Wof (a := a) .wls_var S R := by
      funext i k
      simp only [Wof, Matrix.of_apply, h1]
      by_cases hik : i = k <;> simp [hik, Matrix.diagonal]
    refine ⟨hW, fun tags Y yhat => ?_⟩
    simp [reconcile, buildP, buildMinTrace, hW]
  · intro h0
    have hW : Wof .mint_shrink S R = Wof (a := a) .mint_cov S R := by
      funext i k
      simp only [Wof, Matrix.of_apply, h0]
      ring
    refine ⟨hW, fun tags Y yhat => ?_⟩
    simp [reconcile, buildP, buildMinTrace, hW]

/-- Residuals driving the shrinkage intensity to its upper endpoint `1`. -/
def Rone : Fin (1 + 2) → Fin 2 → ℚ := ![![1, 0], ![1, 0], ![0, 0]]

/-- Residuals with orthogonal rows: zero off-diagonal sample covariances,
driving the shrinkage intensity to its lower endpoint `0`. -/
def Rzero : Fin (1 + 2) → Fin 2 → ℚ := ![![1, 0], ![0, 1], ![0, 0]]

/-- C3 witness: on concrete residuals the intensity is within bounds and the
endpoint equalities hold at intensity one and at intensity zero. -/
theorem mint_shrink_bounds_witness :
    (0 ≤ shrinkIntensity Rone ∧ shrinkIntensity Rone ≤ 1) ∧
      Wof .mint_shrink Stoy Rone = Wof .wls_var Stoy Rone ∧
      Wof .mint_shrink Stoy Rzero = Wof .mint_cov Stoy Rzero := by
  have h1 : shrinkIntensity Rone = 1 := by
    simp only [shrinkIntensity, estVar, covM, Rone, Matrix.of_apply]
    norm_num [Fin.sum_univ_succ]
  have h0 : shrinkIntensity Rzero = 0 := by
    simp only [shrinkIntensity, estVar, covM, Rzero, Matrix.of_apply]
    norm_num [Fin.sum_univ_succ]
  exact ⟨(mint_shrink_bounds Stoy Rone).1,
    ((mint_shrink_bounds Stoy Rone).2.1 h1).1,
    ((mint_shrink_bounds Stoy Rzero).2.2 h0).1⟩

/-- The single root covers every bottom column. -/
theorem root_covers {a n : ℕ} {S : Matrix (Fin (a + n)) (Fin n) ℚ}
    {r : Fin (a + n)} (hroot : rootList S = [r]) : ∀ j, S r j ≠ 0 := by
  have hmem : r ∈ rootList S := by rw [hroot]; exact List.mem_singleton.mpr rfl
  unfold rootList at hmem
  exact of_decide_eq_true (List.mem_filter.mp hmem).2

/-- The variant proportions relative to the single root sum to one, given a
coherent history with nonzero root values and a nonzero bottom base-forecast
total. -/
theorem tdProp_sum_one {a n T : ℕ} (td : TDMethod)
    (S : Matrix (Fin (a + n)) (Fin n) ℚ)
    (Y : Fin (a + n) → Fin T → ℚ) (yhat : Fin (a + n) → ℚ)
    (r : Fin (a + n))
    (hroot : rootList S = [r])
    (hist : ∀ t, Y r t = ∑ j, Y (botIdx a j) t)
    (hT : 0 < T)
    (hYr : ∀ t, Y r t ≠ 0)
    (hYs : (∑ t, Y r t) ≠ 0)
    (hfs : (∑ k, yhat (botIdx a k)) ≠ 0) :
    (∑ j, tdProp td S Y yhat r j) = 1 := by
  cases td with
  | average_proportions =>
      have h1 : ∀ t, (∑ j, Y (botIdx a j) t / Y r t) = 1 := by
        intro t
        rw [← Finset.sum_div, ← hist t, div_self (hYr t)]
      calc ∑ j, (∑ t, Y (botIdx a j) t / Y r t) / (T : ℚ)
          = (∑ j, ∑ t, Y (botIdx a j) t / Y r t) / (T : ℚ) := by
            rw [Finset.sum_div]
        _ = (∑ t, ∑ j, Y (botIdx a j) t / Y r t) / (T : ℚ) := by
            rw [Finset.sum_comm]
        _ = (∑ _t : Fin T, (1 : ℚ)) / (T : ℚ) := by
            rw [Finset.sum_congr rfl fun t _ => h1 t]
        _ = (T : ℚ) / (T : ℚ) := by simp
        _ = 1 := div_self (by exact_mod_cast hT.ne')
  | proportion_averages =>
      calc ∑ j, (∑ t, Y (botIdx a j) t) / (∑ t, Y r t)
          = (∑ j, ∑ t, Y (botIdx a j) t) / (∑ t, Y r t) := by
            rw [Finset.sum_div]
        _ = (∑ t, ∑ j, Y (botIdx a j) t) / (∑ t, Y r t) := by
            rw [Finset.sum_comm]
        _ = (∑ t, Y r t) / (∑ t, Y r t) := by
            rw [Finset.sum_congr rfl fun t _ => (hist t).symm]
        _ = 1 := div_self hYs
  | forecast_proportions =>
      have hsupp : rowSupport S r = Finset.univ := by
        apply Finset.eq_univ_iff_forall.mpr
        intro j
        exact Finset.mem_filter.mpr ⟨Finset.mem_univ j, root_covers hroot j⟩
      simp only [tdProp, hsupp]
      rw [← Finset.sum_div, div_self hfs]

/-- C5: every TopDown variant keeps the single root forecast unchanged and
distributes it: the sum of the reconciled bottom forecasts equals the root's
base forecast exactly, given a binary `S` with identity bottom block, a
coherent in-sample history with nonzero root values, and a nonzero bottom
base-forecast total. -/
theorem topDown_conserves {a n T : ℕ} (td : TDMethod)
    (S : Matrix (Fin (a + n)) (Fin n) ℚ)
    (Y : Fin (a + n) → Fin T → ℚ) (yhat : Fin (a + n) → ℚ)
    (r : Fin (a + n)) (P : Matrix (Fin n) (Fin (a + n)) ℚ)
    (hS : BottomBlockId S)
    (hbin : ∀ i j, S i j = 0 ∨ S i j = 1)
    (hroot : rootList S = [r])
    (hP : buildTopDown td S Y yhat = some P)
    (hist : ∀ t, Y r t = ∑ j, Y (botIdx a j) t)
    (hT : 0 < T)
    (hYr : ∀ t, Y r t ≠ 0)
    (hYs : (∑ t, Y r t) ≠ 0)
    (hfs : (∑ k, yhat (botIdx a k)) ≠ 0) :
    S.mulVec (P.mulVec yhat) r = yhat r ∧
      (∑ j, S.mulVec (P.mulVec yhat) (botIdx a j)) = yhat r := by
  have hr1 : ∀ j, S r j = 1 := fun j =>
    (hbin r j).resolve_left (root_covers hroot j)
  have hPdef : P = Matrix.of fun j i =>
      if i = r then tdProp td S Y yhat r j else 0 := by
    by_cases hstr : IsStrict S
    · unfold buildTopDown at hP
      rw [if_pos hstr, hroot] at hP
      exact (Option.some.inj hP).symm
    · unfold buildTopDown at hP
      rw [if_neg hstr] at hP
      cases hP
  have hPv : ∀ j, P.mulVec yhat j = tdProp td S Y yhat r j * yhat r := by
    intro j
    rw [hPdef]
    simp [Matrix.mulVec, Matrix.dotProduct, ite_mul, Finset.sum_ite_eq']
  have hsum1 := tdProp_sum_one td S Y yhat r hroot hist hT hYr hYs hfs
  constructor
  · simp only [Matrix.mulVec, Matrix.dotProduct]
    calc (∑ j, S r j * P.mulVec yhat j)
        = ∑ j, tdProp td S Y yhat r j * yhat r := by
          refine Finset.sum_congr rfl fun j _ => ?_
          rw [hr1 j, hPv j, one_mul]
      _ = (∑ j, tdProp td S Y yhat r j) * yhat r := by
          rw [Finset.sum_mul]
      _ = yhat r := by rw [hsum1, one_mul]
  · calc (∑ j, S.mulVec (P.mulVec yhat) (botIdx a j))
        = ∑ j, tdProp td S Y yhat r j * yhat r := by
          refine Finset.sum_congr rfl fun j _ => ?_
          rw [mulVec_botIdx hS, hPv j]
      _ = (∑ j, tdProp td S Y yhat r j) * yhat r := by
          rw [Finset.sum_mul]
      _ = yhat r := by rw [hsum1, one_mul]

/-- The toy TopDown (proportions of averages) operator anchored at the toy
root. -/
def Ptoy : Matrix (Fin 2) (Fin (1 + 2)) ℚ :=
  Matrix.of fun j i =>
    if i = (0 : Fin (1 + 2)) then tdProp .proportion_averages Stoy Ytoy ytoy 0 j
    else 0

/-- C5 witness: on the toy hierarchy with a coherent history, TopDown with
proportions of averages keeps the root forecast `10` and its distributed
bottom forecasts sum back to `10`. -/
theorem topDown_conserves_witness :
    Stoy.mulVec (Ptoy.mulVec ytoy) 0 = ytoy 0 ∧
      (∑ j, Stoy.mulVec (Ptoy.mulVec ytoy) (botIdx 1 j)) = ytoy 0 := by
  have hstr : IsStrict Stoy := by decide
  have hroot : rootList Stoy = [0] := by decide
  have hP : buildTopDown .proportion_averages Stoy Ytoy ytoy = some Ptoy := by
    unfold buildTopDown
    rw [if_pos hstr, hroot]
    rfl
  exact topDown_conserves .proportion_averages Stoy Ytoy ytoy 0 Ptoy
    (by decide) (by decide) hroot hP
    (by intro t; simp [Ytoy, botIdx, Fin.sum_univ_succ]; norm_num)
    (by decide)
    (by intro t; norm_num [Ytoy])
    (by norm_num [Ytoy, Fin.sum_univ_succ])
    (by simp [ytoy, botIdx, Fin.sum_univ_succ]; norm_num)

/-- C4: on a grouped (non-nested) hierarchy, or on any hierarchy whose root
is not unique, TopDown and MiddleOut reconciliation fail with a structural
error (`none`) instead of producing a reconciled output. -/
theorem nonstrict_rejected {a n T : ℕ}
    (tags : List (String × List (Fin (a + n))))
    (S : Matrix (Fin (a + n)) (Fin n) ℚ)
    (Y R : Fin (a + n) → Fin T → ℚ) (yhat : Fin (a + n) → ℚ)
    (h : ¬ IsStrict S ∨ 1 < (rootList S).length) :
    (∀ td, reconcile (.topDown td) tags S Y R yhat = none) ∧
    (∀ lvl td, reconcile (.middleOut lvl td) tags S Y R yhat = none) := by
  have hTD : ∀ td, buildTopDown (T := T) td S Y yhat = none := by
    intro td
    unfold buildTopDown
    rcases h with hns | hlen
    · rw [if_neg hns]
    · by_cases hstr : IsStrict S
      · rw [if_pos hstr]
        cases hrl : rootList S with
        | nil => rfl
        | cons x xs =>
            cases xs with
            | nil => rw [hrl] at hlen; simp at hlen
            | cons y ys => rfl
      · rw [if_neg hstr]
  have hMO : ∀ lvl td, buildMiddleOut (T := T) lvl td tags S Y yhat = none := by
    intro lvl td
    unfold buildMiddleOut
    rcases h with hns | hlen
    · rw [if_neg (fun hc => hns hc.1)]
    · by_cases hcond : IsStrict S ∧ (tags.lookup lvl).isSome
      · rw [if_pos hcond]
        cases hrl : rootList S with
        | nil => rfl
        | cons x xs =>
            cases xs with
            | nil => rw [hrl] at hlen; simp at hlen
            | cons y ys => rfl
      · rw [if_neg hcond]
  exact ⟨fun td => by simp [reconcile, buildP, hTD td],
    fun lvl td => by simp [reconcile, buildP, hMO lvl td]⟩

/-- A grouped (non-nested) hierarchy: two overlapping aggregate groupings
`{b0, b1}` and `{b1, b2}` over three bottom series, plus the root. -/
def Sgrp : Matrix (Fin (3 + 3)) (Fin 3) ℚ :=
  !![1, 1, 1; 1, 1, 0; 0, 1, 1; 1, 0, 0; 0, 1, 0; 0, 0, 1]

/-- Zero history for the grouped example. -/
def Ygrp : Fin (3 + 3) → Fin 1 → ℚ := fun _ _ => 0

/-- C4 witness: on the concrete grouped hierarchy both TopDown and MiddleOut
return a structural error. -/
theorem nonstrict_rejected_witness :
    reconcile (.topDown .average_proportions) [] Sgrp Ygrp Ygrp
        (fun _ => 0) = none ∧
      reconcile (.middleOut "mid" .average_proportions) [] Sgrp Ygrp Ygrp
        (fun _ => 0) = none := by
  have h := nonstrict_rejected [] Sgrp Ygrp Ygrp (fun _ => 0)
    (Or.inl (by decide))
  exact ⟨h.1 .average_proportions, h.2 "mid" .average_proportions⟩

/-- Rendered name of a TopDown variant. -/
def tdName : TDMethod → String
  | .average_proportions => "average_proportions"
  | .proportion_averages => "proportion_averages"
  | .forecast_proportions => "forecast_proportions"

/-- Rendered name of a MinTrace variant. -/
def mtName : MTMethod → String
  | .ols => "ols"
  | .wls_struct => "wls_struct"
  | .wls_var => "wls_var"
  | .mint_cov => "mint_cov"
  | .mint_shrink => "mint_shrink"

/-- Modelled from the spec: driver column naming, absent from the snapshot —
`<MethodName>[_<param>-<value>...]`, with the method parameters rendered so
that distinct parameterized variants get distinct names. -/
def methodName : Method → String
  | .bottomUp => "BottomUp"
  | .topDown td => "TopDown_method-" ++ tdName td
  | .middleOut lvl td => "MiddleOut_level-" ++ lvl ++ "_method-" ++ tdName td
  | .minTrace mt => "MinTrace_method-" ++ mtName mt

/-- Modelled from the spec: the reconciled column name
`<model>/<MethodName>[_<param>-<value>...]`. -/
def recColName (model : String) (meth : Method) : String :=
  model ++ "/" ++ methodName meth

/-- Method names are collision-free across all method variants and
parameters. -/
theorem methodName_inj : ∀ m1 m2 : Method, methodName m1 = methodName m2 → m1 = m2 := by
  have e : ∀ s t : String, (s ++ t).data = s.data ++ t.data := fun _ _ => rfl
  intro m1 m2 h
  cases m1 <;> cases m2 <;>
    first
    | rfl
    | (simp only [methodName] at h
       have hd := congrArg String.data h
       simp only [e, List.append_assoc] at hd
       first
       | (simp at hd; done)
       | (rename_i p1 p2
          cases p1 <;> cases p2 <;> simp [tdName, mtName] at hd <;> rfl)
       | (rename_i l1 t1 l2 t2
          have h2 := List.append_cancel_left hd
          have h3 := congrArg List.reverse h2
          simp only [List.reverse_append, List.append_assoc] at h3
          cases t1 <;> cases t2 <;> simp [tdName] at h3 <;>
            rw [String.ext h3]))

/-- Full reconciled column names are injective in the method for a fixed
base-model column. -/
theorem recColName_inj (model : String) (m1 m2 : Method)
    (h : recColName model m1 = recColName model m2) : m1 = m2 := by
  have e : ∀ s t : String, (s ++ t).data = s.data ++ t.data := fun _ _ => rfl
  unfold recColName at h
  have hd := congrArg String.data h
  simp only [e, List.append_assoc] at hd
  have h2 := List.append_cancel_left hd
  have h3 := List.append_cancel_left h2
  exact methodName_inj m1 m2 (String.ext h3)

/-- A forecast table: row identifiers, timestamps, and named value columns
(one per base model; the driver appends reconciled columns). -/
structure FcstTable (m h : ℕ) where
  ids : Fin m → String
  ts : Fin h → ℤ
  cols : List (String × (Fin m → Fin h → ℚ))

/-- Modelled from the spec: reconcile one base-model column with one method,
horizon step by horizon step; a structural operator failure fails the whole
column. -/
def reconcileCol {a n T h : ℕ} (meth : Method)
    (tags : List (String × List (Fin (a + n))))
    (S : Matrix (Fin (a + n)) (Fin n) ℚ) (Y R : Fin (a + n) → Fin T → ℚ)
    (c : Fin (a + n) → Fin h → ℚ) : Option (Fin (a + n) → Fin h → ℚ) :=
  if ∀ t : Fin h, (reconcile meth tags S Y R (fun i => c i t)).isSome then
    some (fun i t => (reconcile meth tags S Y R (fun i => c i t)).getD (fun _ => 0) i)
  else none

/-- Modelled from the spec: the reconciled columns produced for one
base-model column, one per requested method, in request order. -/
def colsFor {a n T h : ℕ} (methods : List Method)
    (tags : List (String × List (Fin (a + n))))
    (S : Matrix (Fin (a + n)) (Fin n) ℚ) (Y R : Fin (a + n) → Fin T → ℚ)
    (c : String × (Fin (a + n) → Fin h → ℚ)) :
    Option (List (String × (Fin (a + n) → Fin h → ℚ))) :=
  match methods with
  | [] => some []
  | meth :: ms => do
      let v ← reconcileCol meth tags S Y R c.2
      let rest ← colsFor ms tags S Y R c
      pure ((recColName c.1 meth, v) :: rest)

/-- Modelled from the spec: all reconciled columns over all base-model
columns, column-major, failing fast with no partial output. -/
def addedCols {a n T h : ℕ}
    (cols : List (String × (Fin (a + n) → Fin h → ℚ)))
    (methods : List Method)
    (tags : List (String × List (Fin (a + n))))
    (S : Matrix (Fin (a + n)) (Fin n) ℚ) (Y R : Fin (a + n) → Fin T → ℚ) :
    Option (List (String × (Fin (a + n) → Fin h → ℚ))) :=
  match cols with
  | [] => some []
  | c :: cs => do
      let these ← colsFor methods tags S Y R c
      let rest ← addedCols cs methods tags S Y R
      pure (these ++ rest)

/-- Modelled from the spec: reconciliation driver, absent from the
snapshot — validates and reconciles every (base column × method) pair,
appending one new deterministically-named column per pair to the table;
any structural failure aborts the whole call. -/
def driver {a n T h : ℕ} (methods : List Method)
    (tags : List (String × List (Fin (a + n))))
    (S : Matrix (Fin (a + n)) (Fin n) ℚ) (Y R : Fin (a + n) → Fin T → ℚ)
    (tbl : FcstTable (a + n) h) : Option (FcstTable (a + n) h) := do
  let added ← addedCols tbl.cols methods tags S Y R
  pure { ids := tbl.ids, ts := tbl.ts, cols := tbl.cols ++ added }

/-- The names of the columns produced for one base column are exactly the
requested methods' rendered names, in order. -/
theorem colsFor_names {a n T h : ℕ} (methods : List Method)
    (tags : List (String × List (Fin (a + n))))
    (S : Matrix (Fin (a + n)) (Fin n) ℚ) (Y R : Fin (a + n) → Fin T → ℚ)
    (c : String × (Fin (a + n) → Fin h → ℚ))
    (l : List (String × (Fin (a + n) → Fin h → ℚ)))
    (hl : colsFor methods tags S Y R c = some l) :
    l.map Prod.fst = methods.map (recColName c.1) := by
  induction methods generalizing l with
  | nil =>
      simp [colsFor] at hl
      subst hl
      rfl
  | cons meth ms ih =>
      unfold colsFor at hl
      cases hv : reconcileCol meth tags S Y R c.2 with
      | none => rw [hv] at hl; simp at hl
      | some v =>
          rw [hv] at hl
          cases hrest : colsFor ms tags S Y R c with
          | none => rw [hrest] at hl; simp at hl
          | some rest =>
              rw [hrest] at hl
              simp at hl
              rw [← hl]
              simp [ih rest hrest]

/-- The names of all added columns: one per (base column × method) pair,
column-major. -/
theorem addedCols_names {a n T h : ℕ}
    (cols : List (String × (Fin (a + n) → Fin h → ℚ)))
    (methods : List Method)
    (tags : List (String × List (Fin (a + n))))
    (S : Matrix (Fin (a + n)) (Fin n) ℚ) (Y R : Fin (a + n) → Fin T → ℚ)
    (L : List (String × (Fin (a + n) → Fin h → ℚ)))
    (hL : addedCols cols methods tags S Y R = some L) :
    L.map Prod.fst = cols.flatMap (fun c => methods.map (recColName c.1)) := by
  induction cols generalizing L with
  | nil =>
      simp [addedCols] at hL
      subst hL
      rfl
  | cons c cs ih =>
      unfold addedCols at hL
      cases hthese : colsFor methods tags S Y R c with
      | none => rw [hthese] at hL; simp at hL
      | some these =>
          rw [hthese] at hL
          cases hrest : addedCols cs methods tags S Y R with
          | none => rw [hrest] at hL; simp at hL
          | some rest =>
              rw [hrest] at hL
              simp at hL
              rw [← hL]
              simp [colsFor_names methods tags S Y R c these hthese, ih rest hrest]

/-- C7: the driver adds exactly one column per (base column × method) pair,
named `<model>/<MethodName>[_<param>-<value>...]`, and fixing the model the
rendered names are injective in the method, so parameterized variants of the
same method coexist without collision. -/
theorem driver_colnames {a n T h : ℕ} (methods : List Method)
    (tags : List (String × List (Fin (a + n))))
    (S : Matrix (Fin (a + n)) (Fin n) ℚ) (Y R : Fin (a + n) → Fin T → ℚ)
    (tbl out : FcstTable (a + n) h)
    (hout : driver methods tags S Y R tbl = some out) :
    out.cols.map Prod.fst
      = tbl.cols.map Prod.fst ++
          tbl.cols.flatMap (fun c => methods.map (recColName c.1)) ∧
    ∀ (model : String) (m1 m2 : Method),
      recColName model m1 = recColName model m2 → m1 = m2 := by
  refine ⟨?_, recColName_inj⟩
  unfold driver at hout
  cases hadd : addedCols tbl.cols methods tags S Y R with
  | none => rw [hadd] at hout; simp at hout
  | some added =>
      rw [hadd] at hout
      simp at hout
      rw [← hout]
      simp [addedCols_names tbl.cols methods tags S Y R added hadd]

/-- C9: the driver is a pure frame extension — identifiers and timestamps
are returned unchanged, the input columns are a prefix of the output columns
with their values untouched, and reconciliation only appends new columns. -/
theorem driver_frame {a n T h : ℕ} (methods : List Method)
    (tags : List (String × List (Fin (a + n))))
    (S : Matrix (Fin (a + n)) (Fin n) ℚ) (Y R : Fin (a + n) → Fin T → ℚ)
    (tbl out : FcstTable (a + n) h)
    (hout : driver methods tags S Y R tbl = some out) :
    out.ids = tbl.ids ∧ out.ts = tbl.ts ∧
      (∃ added, out.cols = tbl.cols ++ added) ∧
      ∀ c ∈ tbl.cols, c ∈ out.cols := by
  unfold driver at hout
  cases hadd : addedCols tbl.cols methods tags S Y R with
  | none => rw [hadd] at hout; simp at hout
  | some added =>
      rw [hadd] at hout
      simp at hout
      rw [← hout]
      exact ⟨rfl, rfl, ⟨added, rfl⟩,
        fun c hc => List.mem_append_left added hc⟩

/-- A one-column, one-step base forecast table on the toy hierarchy. -/
def tbl0 : FcstTable (1 + 2) 1 where
  ids := !["A", "A1", "A2"]
  ts := ![0]
  cols := [("m", fun i _ => ytoy i)]

/-- C7 witness: one BottomUp request on one base column adds exactly the
column `m/BottomUp`. -/
theorem driver_colnames_witness :
    ∃ out, driver [Method.bottomUp] [] Stoy Ytoy Rtoy tbl0 = some out ∧
      out.cols.map Prod.fst = ["m", "m/BottomUp"] := by
  obtain ⟨out, hout⟩ := Option.isSome_iff_exists.mp
    (by decide : (driver [Method.bottomUp] [] Stoy Ytoy Rtoy tbl0).isSome)
  refine ⟨out, hout, ?_⟩
  rw [(driver_colnames [Method.bottomUp] [] Stoy Ytoy Rtoy tbl0 out hout).1]
  rfl

/-- C9 witness: a MinTrace-ols driver call keeps the toy table's
identifiers, timestamps and base column, only appending. -/
theorem driver_frame_witness :
    ∃ out, driver [Method.minTrace .ols] [] Stoy Ytoy Rtoy tbl0 = some out ∧
      out.ids = tbl0.ids ∧ out.ts = tbl0.ts ∧
      ∃ added, out.cols = tbl0.cols ++ added := by
  obtain ⟨out, hout⟩ := Option.isSome_iff_exists.mp
    (by decide : (driver [Method.minTrace .ols] [] Stoy Ytoy Rtoy tbl0).isSome)
  have h := driver_frame [Method.minTrace .ols] [] Stoy Ytoy Rtoy tbl0 out hout
  exact ⟨out, hout, h.1, h.2.1, h.2.2.1⟩

/-- Sum of consecutive blocks of `w` observations, left to right; a trailing
block shorter than `w` would be summed as-is, but callers always pass lists
whose length is a multiple of `w`. -/
def sumChunks : ℕ → List ℚ → List ℚ
  | _, [] => []
  | 0, _ :: _ => []
  | w + 1, x :: xs =>
      ((x :: xs).take (w + 1)).sum :: sumChunks (w + 1) (xs.drop w)
termination_by _w l => l.length
decreasing_by simp; omega

/-- Modelled from the spec: aggregate_temporal windowing, absent from the
snapshot — windows of length `w` are formed over the most recent complete
multiple of `w` observations, counting backward from the most recent one;
the oldest incomplete remainder is dropped. -/
def tempAgg (w : ℕ) (y : List ℚ) : List ℚ :=
  sumChunks w (y.drop (y.length % w))

/-- Chunk summation on a list of length `w * k` yields `k` window sums. -/
theorem sumChunks_length (w : ℕ) (hw : 0 < w) :
    ∀ (k : ℕ) (l : List ℚ), l.length = w * k → (sumChunks w l).length = k := by
  intro k
  induction k with
  | zero =>
      intro l hl
      rw [Nat.mul_zero] at hl
      rw [List.eq_nil_of_length_eq_zero hl]
      simp [sumChunks]
  | succ k ih =>
      intro l hl
      obtain ⟨w', rfl⟩ : ∃ w', w = w' + 1 := ⟨w - 1, by omega⟩
      cases l with
      | nil => simp at hl
      | cons x xs =>
          rw [sumChunks]
          simp only [List.length_cons]
          rw [ih (xs.drop w')
            (by
              simp only [List.length_drop]
              have hexp : (w' + 1) * (k + 1) = (w' + 1) * k + w' + 1 := by ring
              simp at hl
              omega)]

/-- The `k`-th window sum of `sumChunks` is the sum of the `k`-th block. -/
theorem sumChunks_getD (w : ℕ) (hw : 0 < w) :
    ∀ (k : ℕ) (l : List ℚ), (k + 1) * w ≤ l.length →
      (sumChunks w l).getD k 0 = ((l.drop (k * w)).take w).sum := by
  intro k
  induction k with
  | zero =>
      intro l hk
      cases l with
      | nil => simp at hk; omega
      | cons x xs =>
          obtain ⟨w', rfl⟩ : ∃ w', w = w' + 1 := ⟨w - 1, by omega⟩
          rw [sumChunks]
          simp
  | succ k ih =>
      intro l hk
      cases l with
      | nil => simp at hk; omega
      | cons x xs =>
          obtain ⟨w', rfl⟩ : ∃ w', w = w' + 1 := ⟨w - 1, by omega⟩
          rw [sumChunks]
          simp only [List.getD_cons_succ]
          rw [ih (xs.drop w')
            (by
              simp only [List.length_drop]
              have hexp : (k + 1 + 1) * (w' + 1) = (k + 1) * (w' + 1) + w' + 1 := by
                ring
              simp at hk
              omega)]
          rw [List.drop_drop]
          have hdrop : (x :: xs).drop ((k + 1) * (w' + 1)) =
              xs.drop (k * (w' + 1) + w') := by
            have hexp2 : (k + 1) * (w' + 1) = (k * (w' + 1) + w') + 1 := by ring
            rw [hexp2, List.drop_succ_cons]
          rw [hdrop, Nat.add_comm w' (k * (w' + 1))]

/-- C6: temporal truncation — aggregating a series with window `w` yields
`floor(length / w)` values; the windows are counted backward from the most
recent observation, so exactly the oldest `length mod w` observations are
discarded and the `k`-th aggregated value sums the block starting at offset
`length mod w + k * w`. -/
theorem tempAgg_truncation (w : ℕ) (hw : 0 < w) (y : List ℚ) :
    (tempAgg w y).length = y.length / w ∧
    ∀ k, k < y.length / w →
      (tempAgg w y).getD k 0 = ((y.drop (y.length % w + k * w)).take w).sum := by
  have hdm := Nat.div_add_mod y.length w
  have hlen : (y.drop (y.length % w)).length = w * (y.length / w) := by
    simp only [List.length_drop]
    omega
  constructor
  · exact sumChunks_length w hw (y.length / w) _ hlen
  · intro k hk
    unfold tempAgg
    rw [sumChunks_getD w hw k _
      (by
        rw [hlen]
        calc (k + 1) * w ≤ (y.length / w) * w := Nat.mul_le_mul_right w hk
          _ = w * (y.length / w) := Nat.mul_comm _ _)]
    rw [List.drop_drop]

/-- Seven observations: one more than a multiple of the window length `3`. -/
def y7 : List ℚ := [1, 2, 3, 4, 5, 6, 7]

/-- C6 witness: with seven observations and window `3` there are `7 / 3 = 2`
aggregated values, and the second one sums the block at offset
`7 mod 3 + 3`. -/
theorem tempAgg_truncation_witness :
    (tempAgg 3 y7).length = 7 / 3 ∧
      (tempAgg 3 y7).getD 1 0 = ((y7.drop (7 % 3 + 1 * 3)).take 3).sum := by
  have h := tempAgg_truncation 3 (by norm_num) y7
  constructor
  · simpa [y7] using h.1
  · simpa [y7] using h.2 1 (by norm_num [y7])

/-- A row of the temporally aggregated series table. -/
structure TempRow where
  temporal_id : String
  unique_id : String
  val : ℚ

/-- Modelled from the spec: the temporal identifier `<level>-<index>`. -/
def tempId (lvl : String) (k : ℕ) : String := lvl ++ "-" ++ toString k

/-- Modelled from the spec: aggregate_temporal output table, absent from the
snapshot — for one input series, the aggregated rows of every requested
level, keyed by `temporal_id` while every row retains the original
cross-sectional `unique_id`. -/
def aggTemporalRows (uid : String) (y : List ℚ)
    (spec : List (String × ℕ)) : List TempRow :=
  spec.flatMap fun lw =>
    (List.range (tempAgg lw.2 y).length).map fun k =>
      { temporal_id := tempId lw.1 k
        unique_id := uid
        val := (tempAgg lw.2 y).getD k 0 }

/-- Modelled from the spec: temporal tags, mapping each level name to the
`temporal_id`s of its windows. -/
def tempTags (y : List ℚ) (spec : List (String × ℕ)) :
    List (String × List String) :=
  spec.map fun lw =>
    (lw.1, (List.range (tempAgg lw.2 y).length).map (tempId lw.1))

/-- Modelled from the spec: the row index of the temporal aggregation
matrix, listing every aggregated series by `temporal_id`. -/
def tempSIndex (y : List ℚ) (spec : List (String × ℕ)) : List String :=
  (tempTags y spec).flatMap Prod.snd

/-- Modelled from the spec: a temporal-mode forecast table — every row is
keyed by its `temporal_id` while also retaining the cross-sectional
`unique_id` of the series it aggregates. -/
structure TempFcstTable (m h : ℕ) where
  tids : Fin m → String
  uids : Fin m → String
  ts : Fin h → ℤ
  cols : List (String × (Fin m → Fin h → ℚ))

/-- Modelled from the spec: a temporal reconcile call — the same matrix
algebra as the cross-sectional driver, with the `temporal_id` key column and
the retained `unique_id` column carried through unchanged and one reconciled
column appended per (base column × method) pair. -/
def temporalDriver {a n T h : ℕ} (methods : List Method)
    (tags : List (String × List (Fin (a + n))))
    (S : Matrix (Fin (a + n)) (Fin n) ℚ) (Y R : Fin (a + n) → Fin T → ℚ)
    (tbl : TempFcstTable (a + n) h) : Option (TempFcstTable (a + n) h) := do
  let added ← addedCols tbl.cols methods tags S Y R
  pure { tids := tbl.tids, uids := tbl.uids, ts := tbl.ts,
         cols := tbl.cols ++ added }

/-- C10: temporal-mode dual keys — every aggregated row is keyed by a
`temporal_id` of the form `<level>-<index>` for a requested level while
retaining the original `unique_id`; the aggregation-matrix index equals the
rows' `temporal_id` column; every tag member is the `temporal_id` of an
output row of its level, so level membership is expressed by `temporal_id`,
not by `unique_id`; and the reconciled output of a temporal reconcile call
on a table keyed by the aggregation's temporal ids stays keyed by those
`<level>-<index>` temporal ids, retains the `unique_id` column on every row,
and only appends reconciled columns. -/
theorem temporal_dual_keys (uid : String) (y : List ℚ)
    (spec : List (String × ℕ)) :
    (∀ row ∈ aggTemporalRows uid y spec,
        row.unique_id = uid ∧
        ∃ lw ∈ spec, ∃ k, row.temporal_id = tempId lw.1 k) ∧
    tempSIndex y spec = (aggTemporalRows uid y spec).map TempRow.temporal_id ∧
    (∀ e ∈ tempTags y spec, ∀ id ∈ e.2,
        ∃ row ∈ aggTemporalRows uid y spec,
          row.temporal_id = id ∧ row.unique_id = uid) ∧
    (∀ (a n T h : ℕ) (methods : List Method)
        (tags : List (String × List (Fin (a + n))))
        (S : Matrix (Fin (a + n)) (Fin n) ℚ) (Y R : Fin (a + n) → Fin T → ℚ)
        (tbl out : TempFcstTable (a + n) h),
        temporalDriver methods tags S Y R tbl = some out →
        (∀ i, tbl.tids i ∈ tempSIndex y spec) →
        (∀ i, tbl.uids i = uid) →
        (∀ i, out.tids i ∈ tempSIndex y spec ∧
            (∃ lw ∈ spec, ∃ k, out.tids i = tempId lw.1 k) ∧
            out.uids i = uid) ∧
          ∃ added, out.cols = tbl.cols ++ added) := by
  refine ⟨?_, ?_, ?_, ?_⟩
  · intro row hrow
    simp only [aggTemporalRows, List.mem_flatMap, List.mem_map,
      List.mem_range] at hrow
    obtain ⟨lw, hlw, k, hk, hrk⟩ := hrow
    subst hrk
    exact ⟨rfl, lw, hlw, k, rfl⟩
  · simp only [tempSIndex, tempTags, aggTemporalRows, List.flatMap_map,
      List.map_flatMap, List.map_map]
    rfl
  · intro e he id hid
    simp only [tempTags, List.mem_map] at he
    obtain ⟨lw, hlw, rfl⟩ := he
    simp only [List.mem_map, List.mem_range] at hid
    obtain ⟨k, hk, rfl⟩ := hid
    refine ⟨⟨tempId lw.1 k, uid, (tempAgg lw.2 y).getD k 0⟩, ?_, rfl, rfl⟩
    simp only [aggTemporalRows, List.mem_flatMap, List.mem_map,
      List.mem_range]
    exact ⟨lw, hlw, k, hk, rfl⟩
  · intro a n T h methods tags S Y R tbl out hout htids huids
    obtain ⟨added, hadd, hrec⟩ : ∃ added,
        addedCols tbl.cols methods tags S Y R = some added ∧
          out = ⟨tbl.tids, tbl.uids, tbl.ts, tbl.cols ++ added⟩ := by
      unfold temporalDriver at hout
      cases hadd : addedCols tbl.cols methods tags S Y R with
      | none => rw [hadd] at hout; exact absurd hout (by simp)
      | some added =>
          rw [hadd] at hout
          exact ⟨added, rfl, by simpa using hout.symm⟩
    subst hrec
    refine ⟨fun i => ⟨htids i, ?_, huids i⟩, added, rfl⟩
    have hmem := htids i
    simp only [tempSIndex, tempTags, List.flatMap_map, List.mem_flatMap,
      List.mem_map, List.mem_range] at hmem
    obtain ⟨lw, hlw, k, _, hk⟩ := hmem
    exact ⟨lw, hlw, k, hk.symm⟩

/-- Modelled from the spec: cross-sectional aggregation builder, absent from
the snapshot — the identifier of bottom series `j` at the level grouping by
the attribute positions `sub`, joining attribute values with the reserved
separator. -/
def levelKey {n : ℕ} (attrs : Fin n → List String) (sub : List ℕ)
    (j : Fin n) : String :=
  String.intercalate "/" (sub.map fun p => (attrs j).getD p "")

/-- The distinct identifiers materialized for one level. -/
def levelIds {n : ℕ} (attrs : Fin n → List String) (sub : List ℕ) :
    List String :=
  ((List.finRange n).map (levelKey attrs sub)).dedup

/-- All identifiers of the stacked series table, in spec order. -/
def allIds {n : ℕ} (attrs : Fin n → List String)
    (spec : List (String × List ℕ)) : List String :=
  spec.flatMap fun lv => levelIds attrs lv.2

/-- The rows of the aggregation matrix, one per (level, identifier). -/
def specRows {n : ℕ} (attrs : Fin n → List String)
    (spec : List (String × List ℕ)) : List (List ℕ × String) :=
  spec.flatMap fun lv => (levelIds attrs lv.2).map fun g => (lv.2, g)

/-- The 0/1 aggregation-matrix entry: does bottom series `j` contribute to
the aggregate `(sub, g)`? -/
def Sentry {n : ℕ} (attrs : Fin n → List String) (sub : List ℕ) (g : String)
    (j : Fin n) : ℚ :=
  if levelKey attrs sub j = g then 1 else 0

/-- The aggregated series value the builder emits for `(sub, g)` at `t`:
the sum of the observations of the bottom records grouped under `g`. -/
def aggVal {n T : ℕ} (attrs : Fin n → List String)
    (y : Fin n → Fin T → ℚ) (sub : List ℕ) (g : String) (t : Fin T) : ℚ :=
  ∑ j ∈ Finset.univ.filter (fun j => levelKey attrs sub j = g), y j t

/-- The level→identifiers index (tags) of the builder. -/
def aggTags {n : ℕ} (attrs : Fin n → List String)
    (spec : List (String × List ℕ)) : List (String × List String) :=
  spec.map fun lv => (lv.1, levelIds attrs lv.2)

/-- The attribute subset of the last (bottom) level of the spec. -/
def lastSub (spec : List (String × List ℕ)) : List ℕ :=
  (spec.getLastD ("", [])).2

/-- Modelled from the spec: the builder's structural validation — a
nonempty spec, no duplicate identifiers across levels, and a bottom (last)
level that separates the bottom records. -/
def aggregateOk {n : ℕ} (attrs : Fin n → List String)
    (spec : List (String × List ℕ)) : Prop :=
  spec ≠ [] ∧ (allIds attrs spec).Nodup ∧
    ∀ i j : Fin n, levelKey attrs (lastSub spec) i =
      levelKey attrs (lastSub spec) j → i = j

instance {n : ℕ} (attrs : Fin n → List String)
    (spec : List (String × List ℕ)) : Decidable (aggregateOk attrs spec) := by
  unfold aggregateOk; infer_instance

/-- Every identifier of a nodup-join tag list lies in exactly one entry. -/
theorem countP_mem_one (L : List (String × List String)) (id : String)
    (hnd : (L.flatMap Prod.snd).Nodup) (hmem : id ∈ L.flatMap Prod.snd) :
    L.countP (fun e => decide (id ∈ e.2)) = 1 := by
  induction L with
  | nil => simp at hmem
  | cons e L ih =>
      simp only [List.flatMap_cons, List.nodup_append] at hnd
      obtain ⟨hnd1, hnd2, hdisj⟩ := hnd
      rw [List.countP_cons]
      by_cases hin : id ∈ e.2
      · have hnot : id ∉ L.flatMap Prod.snd := fun hc => hdisj hin hc
        have hz : L.countP (fun e => decide (id ∈ e.2)) = 0 := by
          rw [List.countP_eq_zero]
          intro x hx
          simp only [decide_eq_true_eq]
          intro hidx
          exact hnot (List.mem_flatMap.mpr ⟨x, hx, hidx⟩)
        simp [hz, hin]
      · simp only [List.flatMap_cons, List.mem_append] at hmem
        have hmem2 : id ∈ L.flatMap Prod.snd := hmem.resolve_left hin
        rw [ih hnd2 hmem2]
        simp [hin]

/-- Sum of a contiguous index interval of a list equals the sum of the
corresponding slice. -/
theorem sum_Ico_getD (y : List ℚ) (a : ℕ) :
    ∀ w : ℕ, a + w ≤ y.length →
      (∑ p ∈ Finset.Ico a (a + w), y.getD p 0) = ((y.drop a).take w).sum := by
  intro w
  induction w with
  | zero => intro h; simp
  | succ w ih =>
      intro h
      rw [show a + (w + 1) = a + w + 1 by ring]
      rw [Finset.sum_Ico_succ_top (by omega)]
      rw [ih (by omega)]
      rw [List.take_succ, List.sum_append]
      congr 1
      have hlt : a + w < y.length := by omega
      rw [List.getElem?_drop, List.getElem?_eq_getElem hlt,
        List.getD_eq_getElem y 0 hlt]
      simp

/-- Modelled from the spec: temporal aggregation matrix, absent from the
snapshot — the 0/1 entry saying whether base period `p` of a series of
length `L` falls inside window `k` of the level with window length `w`,
windows counting backward from the most recent observation. -/
def tempSentry (L w k : ℕ) (p : Fin L) : ℚ :=
  if L % w + k * w ≤ p.val ∧ p.val < L % w + (k + 1) * w then 1 else 0

/-- The temporal matrix row of window `k` applied to the base series equals
the `k`-th aggregated window value. -/
theorem tempSentry_row_sum (ys : List ℚ) (w k : ℕ) (hw : 0 < w)
    (hk : k < ys.length / w) :
    (∑ p : Fin ys.length, tempSentry ys.length w k p * ys.getD p.val 0)
      = (tempAgg w ys).getD k 0 := by
  have hdm := Nat.div_add_mod ys.length w
  have hbound : ys.length % w + (k + 1) * w ≤ ys.length := by
    have hle : (k + 1) * w ≤ (ys.length / w) * w := Nat.mul_le_mul_right w hk
    have hcm : (ys.length / w) * w = w * (ys.length / w) := Nat.mul_comm _ _
    omega
  rw [(tempAgg_truncation w hw ys).2 k hk]
  have hub : ys.length % w + (k + 1) * w = ys.length % w + k * w + w := by ring
  simp only [tempSentry, ite_mul, one_mul, zero_mul, hub]
  rw [Fin.sum_univ_eq_sum_range
    (fun i => if ys.length % w + k * w ≤ i ∧ i < ys.length % w + k * w + w
      then ys.getD i 0 else 0)]
  rw [← Finset.sum_filter]
  have hfi : (Finset.range ys.length).filter
      (fun i => ys.length % w + k * w ≤ i ∧ i < ys.length % w + k * w + w)
      = Finset.Ico (ys.length % w + k * w) (ys.length % w + k * w + w) := by
    ext i
    simp only [Finset.mem_filter, Finset.mem_range, Finset.mem_Ico]
    omega
  rw [hfi, sum_Ico_getD ys _ w (by omega)]

/-- Modelled from the spec: the temporal builder's structural validation —
duplicate identifiers across levels are a structural input error, since the
tags and the matrix index both require identifier uniqueness. -/
def tempAggregateOk (y : List ℚ) (spec : List (String × ℕ)) : Prop :=
  (tempSIndex y spec).Nodup

/-- C2: aggregation-matrix construction invariants — for a validated
cross-sectional build, the bottom-level sub-block of `S` is the identity,
every row of `S` has at least one `1`, `S` applied to the bottom values
reproduces every aggregate value at every timestamp, every identifier
appears in exactly one tag-level entry, and the bottom level's identifiers
are the matrix's column index; and for temporal builds, the
window-length-one block is the identity, every window row has a `1`,
every window row applied to the base series reproduces that window's
aggregated value, every temporal identifier of a validated build appears in
exactly one tag-level entry, and the bottom (window-length-one) level's
identifier list is exactly the matrix's column index, one `<level>-<index>`
identifier per base period in column order. -/
theorem aggregate_invariants {n T : ℕ} (attrs : Fin n → List String)
    (spec : List (String × List ℕ)) (y : Fin n → Fin T → ℚ)
    (hOk : aggregateOk attrs spec) :
    (∀ i j : Fin n,
        Sentry attrs (lastSub spec) (levelKey attrs (lastSub spec) i) j
          = if i = j then 1 else 0) ∧
    (∀ row ∈ specRows attrs spec, ∃ j, Sentry attrs row.1 row.2 j = 1) ∧
    (∀ row ∈ specRows attrs spec, ∀ t,
        (∑ j, Sentry attrs row.1 row.2 j * y j t) = aggVal attrs y row.1 row.2 t) ∧
    (∀ id ∈ allIds attrs spec,
        (aggTags attrs spec).countP (fun e => decide (id ∈ e.2)) = 1) ∧
    levelIds attrs (lastSub spec)
      = (List.finRange n).map (levelKey attrs (lastSub spec)) ∧
    (∀ (L k : ℕ) (p : Fin L),
        tempSentry L 1 k p = if p.val = k then 1 else 0) ∧
    (∀ (L w k : ℕ), 0 < w → k < L / w → ∃ p : Fin L, tempSentry L w k p = 1) ∧
    (∀ (ys : List ℚ) (w k : ℕ), 0 < w → k < ys.length / w →
        (∑ p : Fin ys.length, tempSentry ys.length w k p * ys.getD p.val 0)
          = (tempAgg w ys).getD k 0) ∧
    (∀ (ys : List ℚ) (tspec : List (String × ℕ)), tempAggregateOk ys tspec →
        ∀ id ∈ tempSIndex ys tspec,
          (tempTags ys tspec).countP (fun e => decide (id ∈ e.2)) = 1) ∧
    (∀ (ys : List ℚ) (tspec : List (String × ℕ)) (lvl : String),
        (lvl, 1) ∈ tspec →
          (lvl, (List.range ys.length).map (tempId lvl)) ∈ tempTags ys tspec) := by
  obtain ⟨hne, hnd, hinj⟩ := hOk
  refine ⟨?_, ?_, ?_, ?_, ?_, ?_, ?_, ?_, ?_, ?_⟩
  · intro i j
    unfold Sentry
    by_cases hij : i = j
    · subst hij; simp
    · have hkey : levelKey attrs (lastSub spec) j ≠
          levelKey attrs (lastSub spec) i := fun hc => hij (hinj j i hc).symm
      simp [hkey, hij, Ne.symm hij]
  · intro row hrow
    simp only [specRows, List.mem_flatMap, List.mem_map] at hrow
    obtain ⟨lv, hlv, g, hg, hrg⟩ := hrow
    subst hrg
    have hg2 := List.mem_dedup.mp hg
    obtain ⟨j, _, hkey⟩ := List.mem_map.mp hg2
    exact ⟨j, by simp [Sentry, hkey]⟩
  · intro row _ t
    simp [Sentry, aggVal, Finset.sum_filter, ite_mul]
  · intro id hid
    have hflat : (aggTags attrs spec).flatMap Prod.snd = allIds attrs spec := by
      simp [aggTags, allIds, List.flatMap_map]
    apply countP_mem_one
    · rw [hflat]; exact hnd
    · rw [hflat]; exact hid
  · unfold levelIds
    apply List.dedup_eq_self.mpr
    exact (List.nodup_finRange n).map hinj
  · intro L k p
    unfold tempSentry
    simp only [Nat.mod_one, Nat.zero_add, Nat.mul_one]
    by_cases hp : p.val = k
    · simp [hp]
    · have : ¬(k ≤ p.val ∧ p.val < k + 1) := by omega
      simp only [Nat.zero_add] at this ⊢
      simp [hp, this]
  · intro L w k hw hk
    have hdm := Nat.div_add_mod L w
    have hle : (k + 1) * w ≤ (L / w) * w := Nat.mul_le_mul_right w hk
    have hcm : (L / w) * w = w * (L / w) := Nat.mul_comm _ _
    have hexp : (k + 1) * w = k * w + w := by ring
    refine ⟨⟨L % w + k * w, by omega⟩, ?_⟩
    show (if L % w + k * w ≤ L % w + k * w ∧ L % w + k * w < L % w + (k + 1) * w
      then (1 : ℚ) else 0) = 1
    rw [if_pos]
    exact ⟨le_refl _, by omega⟩
  · exact tempSentry_row_sum
  · intro ys tspec hok id hid
    exact countP_mem_one (tempTags ys tspec) id hok hid
  · intro ys tspec lvl hmem
    have hlen : (tempAgg 1 ys).length = ys.length := by
      rw [(tempAgg_truncation 1 (by norm_num) ys).1, Nat.div_one]
    refine List.mem_map.mpr ⟨(lvl, 1), hmem, ?_⟩
    rw [hlen]

/-- Two bottom series, each carrying country and state attribute values. -/
def attrs0 : Fin 2 → List String := ![["AUS", "NSW"], ["AUS", "VIC"]]

/-- A two-level spec: country, then country/state as the bottom level. -/
def spec0 : List (String × List ℕ) :=
  [("Country", [0]), ("Country/State", [0, 1])]

/-- Four base-period observations for the concrete temporal build. -/
def y4 : List ℚ := [1, 2, 3, 4]

/-- A concrete temporal spec: two-period windows over a window-length-one
bottom level. -/
def spect0 : List (String × ℕ) := [("year", 2), ("month", 1)]

/-- C2 witness: the concrete two-series cross-sectional build validates,
its bottom block is the identity and its bottom identifiers are the column
index; the concrete temporal build validates, each of its identifiers lies
in exactly one tag entry, and its window-length-one level's identifiers are
the column index. -/
theorem aggregate_invariants_witness :
    aggregateOk attrs0 spec0 ∧
      (∀ i j : Fin 2,
          Sentry attrs0 (lastSub spec0) (levelKey attrs0 (lastSub spec0) i) j
            = if i = j then 1 else 0) ∧
      levelIds attrs0 (lastSub spec0)
        = (List.finRange 2).map (levelKey attrs0 (lastSub spec0)) ∧
      tempAggregateOk y4 spect0 ∧
      (∀ id ∈ tempSIndex y4 spect0,
          (tempTags y4 spect0).countP (fun e => decide (id ∈ e.2)) = 1) ∧
      ("month", (List.range y4.length).map (tempId "month")) ∈
        tempTags y4 spect0 := by
  have hOk : aggregateOk attrs0 spec0 := by decide
  have hl2 : (tempAgg 2 y4).length = 2 := by
    rw [(tempAgg_truncation 2 (by norm_num) y4).1]
    norm_num [y4]
  have hl1 : (tempAgg 1 y4).length = 4 := by
    rw [(tempAgg_truncation 1 (by norm_num) y4).1]
    norm_num [y4]
  have hTok : tempAggregateOk y4 spect0 := by
    unfold tempAggregateOk tempSIndex tempTags
    simp only [spect0, List.map_cons, List.map_nil, List.flatMap_cons,
      List.flatMap_nil, hl2, hl1, List.append_nil]
    decide
  have h := aggregate_invariants attrs0 spec0
    (fun _ (_ : Fin 1) => (0 : ℚ)) hOk
  obtain ⟨ha, hb, hc, hd, he, ht1, ht2, ht3, ht4, ht5⟩ := h
  exact ⟨hOk, ha, he, hTok, fun id hid => ht4 y4 spect0 hTok id hid,
    ht5 y4 spect0 "month" (by simp [spect0])⟩

end HF
